import Mathlib

/-!
Verification of the quipslop broadcast rendering and streaming pipeline.

The definitions below are shallow embeddings of the TypeScript source:
the broadcast canvas client (text layout, round selection, vote tally
derivation, websocket state sync, reconnect timers, capture sink) and the
stream orchestrator's control flow.  Text is modelled as `List Char`,
measured text width as an abstract function `List Char → Nat` (the canvas
`measureText` result depends on the font, so theorems quantify over it),
and the stateful browser loops as explicit state-passing functions.
Loops of the source are embedded with an explicit fuel argument returning
`Option`; totality theorems show the fuel bounds taken from the source's
decreasing measures always suffice.
-/

namespace Quipslop

/-! ## Text layout (`textLines` in the broadcast client)

Source: the broadcast canvas client, function `textLines(text, maxWidth,
font, maxLines)`.  `m` stands for `s => ctx.measureText(s).width` for the
ambient font, mapped to `Nat` widths.  `w` is `maxWidth`.
-/

/-- The three-dot ellipsis the source appends: `` `${trimmed}...` ``. -/
def ellipsisChars : List Char := ['.', '.', '.']

/-- `text.split(/\s+/).filter(Boolean)`: maximal whitespace-free runs. -/
def wordsOf (text : List Char) : List (List Char) :=
  (text.splitOnP fun c => c.isWhitespace).filter fun ww => !ww.isEmpty

/-- The binary search of `splitWordToFit`: finds the largest prefix length
of `r` whose measured width fits in `w`.  `low`, `high`, `best` mirror the
source variables; `mid = Math.floor((low + high) / 2)`; fuel models the
`while (low <= high)` loop (the interval shrinks every iteration). -/
def bsearchF (m : List Char → Nat) (w : Nat) (r : List Char) :
    Nat → Nat → Nat → Nat → Option Nat
  | 0, _, _, _ => none
  | fuel + 1, low, high, best =>
    if low ≤ high then
      if m (r.take ((low + high) / 2)) ≤ w then
        bsearchF m w r fuel ((low + high) / 2 + 1) high ((low + high) / 2)
      else
        bsearchF m w r fuel low ((low + high) / 2 - 1) best
    else
      some best

/-- The `while (remaining.length > 0)` loop of `splitWordToFit`: repeatedly
cut the largest fitting prefix off `remaining`.  The binary search starts
at `low = maxChunkLength = 1`, `high = remaining.length`, `best = 1`; its
fuel `remaining.length + 1` bounds the interval size.  The outer fuel
models that each iteration removes at least `best ≥ 1` characters. -/
def splitGoF (m : List Char → Nat) (w : Nat) : Nat → List Char → Option (List (List Char))
  | _, [] => some []
  | 0, _ :: _ => none
  | fuel + 1, c :: cs =>
    match bsearchF m w (c :: cs) ((c :: cs).length + 1) 1 (c :: cs).length 1 with
    | none => none
    | some best =>
      match splitGoF m w fuel ((c :: cs).drop best) with
      | none => none
      | some rest => some ((c :: cs).take best :: rest)

/-- `splitWordToFit(word)`: a word that fits is kept whole, otherwise it is
cut into maximal fitting pieces.  Fuel for the cutting loop is the word
length. -/
def splitWordToFit (m : List Char → Nat) (w : Nat) (word : List Char) :
    Option (List (List Char)) :=
  if word.isEmpty then some []
  else if m word ≤ w then some [word]
  else splitGoF m w word.length word

/-- The word-boundary separator: a space before the first segment of a
word when a line is already being built (`prefix` in the source). -/
def segSep (isFirst : Bool) (current : List Char) : List Char :=
  if isFirst && !current.isEmpty then [' '] else []

/-- `if (current) lines.push(current)` — also used after the word loop. -/
def pushCurrent (lines : List (List Char)) (current : List Char) :
    List (List Char) :=
  if current.isEmpty then lines else lines ++ [current]

/-- The inner `for (const segment of segments)` loop of `textLines`.
Returns the updated `lines`, `current`, and whether the loop hit the
`break` on `lines.length >= maxLines - 1`.  A space separates `current`
from the first segment of a word only. -/
def packSegs (m : List Char → Nat) (w maxLines : Nat) :
    List (List Char) → Bool → List (List Char) → List Char →
    List (List Char) × List Char × Bool
  | [], _, lines, current => (lines, current, false)
  | seg :: rest, isFirst, lines, current =>
    if m (current ++ segSep isFirst current ++ seg) ≤ w then
      packSegs m w maxLines rest false lines (current ++ segSep isFirst current ++ seg)
    else
      if maxLines - 1 ≤ (pushCurrent lines current).length then
        (pushCurrent lines current, seg, true)
      else
        packSegs m w maxLines rest false (pushCurrent lines current) seg

/-- The outer `for (const word of words)` loop of `textLines`.  After each
word the source re-checks `lines.length >= maxLines - 1` and breaks (the
inner break already implies that condition, making `brk` redundant but it
is kept for faithfulness). -/
def packWordsF (m : List Char → Nat) (w maxLines : Nat) :
    List (List Char) → List (List Char) → List Char →
    Option (List (List Char) × List Char)
  | [], lines, current => some (lines, current)
  | word :: rest, lines, current =>
    match splitWordToFit m w word with
    | none => none
    | some segs =>
      match packSegs m w maxLines segs true lines current with
      | (lines1, current1, brk) =>
        if brk || maxLines - 1 ≤ lines1.length then
          some (lines1, current1)
        else
          packWordsF m w maxLines rest lines1 current1

/-- The ellipsis-trim loop: `while (trimmed.length > 3 &&
measure(trimmed + "...") > maxWidth) trimmed = trimmed.slice(0, -1)`.
Fuel is the starting length (each iteration drops one character). -/
def trimF (m : List Char → Nat) (w : Nat) : Nat → List Char → Option (List Char)
  | fuel, t =>
    if 3 < t.length ∧ w < m (t ++ ellipsisChars) then
      match fuel with
      | 0 => none
      | fuel + 1 => trimF m w fuel t.dropLast
    else
      some t

/-- `if (lines.length > maxLines) lines.length = maxLines`. -/
def capLines (maxLines : Nat) (lines : List (List Char)) : List (List Char) :=
  if maxLines < lines.length then lines.take maxLines else lines

/-- The ellipsis stage of `textLines`: when the input had words and the
line cap was reached, an overflowing final line (`lines[maxLines - 1] ??
""`) is replaced by its ellipsis-trimmed form. -/
def trimStage (m : List Char → Nat) (w maxLines : Nat) (hasWords : Bool)
    (lines : List (List Char)) : Option (List (List Char)) :=
  if hasWords = true ∧ lines.length = maxLines then
    if w < m (lines.getD (maxLines - 1) []) then
      match trimF m w (lines.getD (maxLines - 1) []).length (lines.getD (maxLines - 1) []) with
      | none => none
      | some t => some (lines.set (maxLines - 1) (t ++ ellipsisChars))
    else some lines
  else some lines

/-- The tail of `textLines` after the word loop: push the pending
`current`, truncate to `maxLines`, then run the ellipsis stage. -/
def finishLines (m : List Char → Nat) (w maxLines : Nat) (hasWords : Bool)
    (lines0 : List (List Char)) (current : List Char) : Option (List (List Char)) :=
  trimStage m w maxLines hasWords (capLines maxLines (pushCurrent lines0 current))

/-- `textLines(text, maxWidth, font, maxLines)` as the composition of the
loops above; `none` only on fuel exhaustion, which `textLinesF_isSome`
rules out. -/
def textLinesF (m : List Char → Nat) (text : List Char) (w maxLines : Nat) :
    Option (List (List Char)) :=
  match packWordsF m w maxLines (wordsOf text) [] [] with
  | none => none
  | some (lines, current) =>
      finishLines m w maxLines (!(wordsOf text).isEmpty) lines current

/-- The total wrapper for `textLines`. -/
def textLines (m : List Char → Nat) (text : List Char) (w maxLines : Nat) :
    List (List Char) :=
  (textLinesF m text w maxLines).getD []

/-! ## Data model (the broadcast client's types) -/

/-- `type Model = { id: string; name: string }`. -/
structure Model where
  id : String
  name : String
deriving DecidableEq

/-- `type TaskInfo`. -/
structure TaskInfo where
  model : Model
  startedAt : Nat
  finishedAt : Option Nat
  result : Option String
  error : Option String
deriving DecidableEq

/-- `type VoteInfo`; the optional `error?: boolean` is modelled as a `Bool`
(absent and `false` are both falsy and indistinguishable to the client). -/
structure VoteInfo where
  voter : Model
  startedAt : Nat
  finishedAt : Option Nat
  votedFor : Option Model
  error : Bool
deriving DecidableEq

/-- The four round phases. -/
inductive Phase where
  | prompting
  | answering
  | voting
  | done
deriving DecidableEq

/-- `type RoundState`. -/
structure RoundState where
  num : Nat
  phase : Phase
  prompter : Model
  promptTask : TaskInfo
  prompt : Option String
  contestants : Model × Model
  answerTasks : TaskInfo × TaskInfo
  votes : List VoteInfo
  scoreA : Option Nat
  scoreB : Option Nat
  viewerVotesA : Option Nat
  viewerVotesB : Option Nat
  viewerVotingEndsAt : Option Nat
deriving DecidableEq

/-- `type GameState`; the `Record<string, number>` score maps are modelled
as association lists. -/
structure GameState where
  lastCompleted : Option RoundState
  active : Option RoundState
  scores : List (String × Nat)
  viewerScores : List (String × Nat)
  done : Bool
  isPaused : Bool
  generation : Nat
deriving DecidableEq

/-! ## Round selection in `draw()` -/

/-- JavaScript truthiness of an optional string: `undefined` and `""` are
falsy. -/
def strTruthy : Option String → Bool
  | none => false
  | some s => !s.isEmpty

/-- What `draw()` chooses to render in the main area. -/
inductive DrawChoice where
  | waiting
  | gameOver
  | round (r : RoundState)
deriving DecidableEq

/-- `state.active?.phase === "prompting" && !state.active.prompt`. -/
def isNextPrompting (s : GameState) : Bool :=
  match s.active with
  | some a => decide (a.phase = Phase.prompting) && !(strTruthy a.prompt)
  | none => false

/-- `isNextPrompting && state.lastCompleted ? state.lastCompleted :
(state.active ?? state.lastCompleted ?? null)`. -/
def displayRound (s : GameState) : Option RoundState :=
  if isNextPrompting s = true ∧ s.lastCompleted ≠ none then s.lastCompleted
  else
    match s.active with
    | some a => some a
    | none => s.lastCompleted

/-- The branch structure of `draw()`: null snapshot → waiting placeholder;
`state.done` → game-over screen; otherwise the selected round, or the
waiting placeholder when there is none. -/
def draw (st : Option GameState) : DrawChoice :=
  match st with
  | none => DrawChoice.waiting
  | some s =>
    if s.done then DrawChoice.gameOver
    else
      match displayRound s with
      | some r => DrawChoice.round r
      | none => DrawChoice.waiting

/-! ## Vote tally derivation

`drawContestantCard` scans `round.votes` with two independent `if`
statements per vote; the history view (`HistoryCard`) uses an
`if / else if` chain.  Both derivations are embedded as head-recursions
whose per-vote contribution mirrors the source's increments.
-/

/-- Per-vote contribution of the `drawContestantCard` loop:
`if (vote.votedFor?.name === a.name) votesA += 1;`
`if (vote.votedFor?.name === b.name) votesB += 1;` (independent tests). -/
def voteDelta (nameA nameB : String) (v : VoteInfo) : Nat × Nat :=
  match v.votedFor with
  | none => (0, 0)
  | some mdl =>
    (if mdl.name = nameA then 1 else 0, if mdl.name = nameB then 1 else 0)

/-- The derived `(votesA, votesB)` of `drawContestantCard`. -/
def cardCounts (nameA nameB : String) : List VoteInfo → Nat × Nat
  | [] => (0, 0)
  | v :: vs =>
    let d := voteDelta nameA nameB v
    let rest := cardCounts nameA nameB vs
    (d.1 + rest.1, d.2 + rest.2)

/-- Per-vote contribution of the `HistoryCard` loop (`else if` chain). -/
def historyDelta (nameA nameB : String) (v : VoteInfo) : Nat × Nat :=
  match v.votedFor with
  | none => (0, 0)
  | some mdl =>
    if mdl.name = nameA then (1, 0)
    else if mdl.name = nameB then (0, 1)
    else (0, 0)

/-- The derived `(votesA, votesB)` of `HistoryCard`. -/
def historyCounts (nameA nameB : String) : List VoteInfo → Nat × Nat
  | [] => (0, 0)
  | v :: vs =>
    let d := historyDelta nameA nameB v
    let rest := historyCounts nameA nameB vs
    (d.1 + rest.1, d.2 + rest.2)

/-- `votesA` as derived for a round by `drawContestantCard`. -/
def cardVotesA (r : RoundState) : Nat :=
  (cardCounts r.contestants.1.name r.contestants.2.name r.votes).1

/-- `votesB` as derived for a round by `drawContestantCard`. -/
def cardVotesB (r : RoundState) : Nat :=
  (cardCounts r.contestants.1.name r.contestants.2.name r.votes).2

/-- `votesA` as derived for a round by `HistoryCard`. -/
def historyVotesA (r : RoundState) : Nat :=
  (historyCounts r.contestants.1.name r.contestants.2.name r.votes).1

/-- `votesB` as derived for a round by `HistoryCard`. -/
def historyVotesB (r : RoundState) : Nat :=
  (historyCounts r.contestants.1.name r.contestants.2.name r.votes).2

/-- `drawContestantCard`'s winner badge condition:
`isFirst = round.answerTasks[0].model.name === task.model.name`,
`isWinner = round.phase === "done" && voteCount > (isFirst ? votesB : votesA)`. -/
def cardIsWinner (r : RoundState) (task : TaskInfo) : Bool :=
  let isFirst := decide (r.answerTasks.1.model.name = task.model.name)
  let voteCount := if isFirst then cardVotesA r else cardVotesB r
  let otherCount := if isFirst then cardVotesB r else cardVotesA r
  decide (r.phase = Phase.done) && decide (otherCount < voteCount)

/-- `HistoryCard`'s `isAWinner = votesA > votesB` (no phase check). -/
def historyIsAWinner (r : RoundState) : Bool :=
  decide (historyVotesB r < historyVotesA r)

/-- `HistoryCard`'s `isBWinner = votesB > votesA` (no phase check). -/
def historyIsBWinner (r : RoundState) : Bool :=
  decide (historyVotesA r < historyVotesB r)

/-! ## WebSocket state sync (`ws.onmessage` of the broadcast client) -/

/-- The module-level mutable client state touched by `ws.onmessage`. -/
structure ClientState where
  latestState : Option GameState
  totalRounds : Option Nat
  viewerCount : Nat
  lastMessageAt : Nat
  knownVersion : Option String
deriving DecidableEq

/-- The two inbound message kinds (`type ServerMessage`).  `totalRounds`
is an `Int` so the `msg.totalRounds >= 0` guard is meaningful. -/
inductive ServerMessage where
  | state (data : GameState) (totalRounds : Int) (viewerCount : Nat) (version : Option String)
  | viewerCount (count : Nat)
deriving DecidableEq

/-- Outcome of one `ws.onmessage` invocation: an updated client state, or
`location.reload()`. -/
inductive MsgResult where
  | applied (c : ClientState)
  | reload
deriving DecidableEq

/-- Applying a full-state payload: `state = msg.data; totalRounds = ...;
viewerCount = msg.viewerCount; lastMessageAt = Date.now()`, with
`knownVersion` passed in by the caller. -/
def applyState (now : Nat) (data : GameState) (tr : Int) (vc : Nat)
    (kv : Option String) : ClientState :=
  ⟨some data, if 0 ≤ tr then some tr.toNat else none, vc, now, kv⟩

/-- The body of `ws.onmessage` for a parsed message.  `if (msg.version)`
and `if (!knownVersion)` use JavaScript truthiness (empty strings are
falsy). -/
def onMessage (c : ClientState) (now : Nat) : ServerMessage → MsgResult
  | ServerMessage.state data tr vc version =>
    if strTruthy version then
      if !(strTruthy c.knownVersion) then
        MsgResult.applied (applyState now data tr vc version)
      else if c.knownVersion ≠ version then
        MsgResult.reload
      else
        MsgResult.applied (applyState now data tr vc c.knownVersion)
    else
      MsgResult.applied (applyState now data tr vc c.knownVersion)
  | ServerMessage.viewerCount n =>
    MsgResult.applied ⟨c.latestState, c.totalRounds, n, c.lastMessageAt, c.knownVersion⟩

/-- Processing a message sequence; a reload tears the page down, so no
later message of the sequence is processed (the flag records that exactly
one reload was triggered). -/
def runMessages (c : ClientState) (now : Nat) : List ServerMessage → ClientState × Bool
  | [] => (c, false)
  | msg :: rest =>
    match onMessage c now msg with
    | MsgResult.reload => (c, true)
    | MsgResult.applied c1 => runMessages c1 now rest

/-! ## Reconnect timer (`ws.onclose`) -/

/-- The host's pending-timeout table: pending `(id, delay)` pairs plus a
fresh-id counter. -/
structure TimerSys where
  pending : List (Nat × Nat)
  nextId : Nat
deriving DecidableEq

/-- `window.clearTimeout(id)`: cancelling a fired or unknown id is a
no-op. -/
def clearTimeoutSys (ts : TimerSys) (id : Nat) : TimerSys :=
  ⟨ts.pending.filter fun p => p.1 ≠ id, ts.nextId⟩

/-- `window.setTimeout(cb, delay)`: registers a fresh pending timer and
returns its id. -/
def setTimeoutSys (ts : TimerSys) (delay : Nat) : TimerSys × Nat :=
  (⟨ts.pending ++ [(ts.nextId, delay)], ts.nextId + 1⟩, ts.nextId)

/-- The client's connection flags touched by `ws.onclose`. -/
structure WsClient where
  connected : Bool
  reconnectTimer : Option Nat
deriving DecidableEq

/-- `ws.onclose`: clear any previously scheduled reconnect timer, then
schedule `setupWebSocket` after a fixed 1000 ms. -/
def onClose (wc : WsClient) (ts : TimerSys) : WsClient × TimerSys :=
  let ts1 := match wc.reconnectTimer with
    | some id => clearTimeoutSys ts id
    | none => ts
  let st := setTimeoutSys ts1 1000
  (⟨false, some st.2⟩, st.1)

/-- A pending timer firing: the host removes it and runs its callback
(`setupWebSocket`), which does not touch `reconnectTimer`. -/
def fireTimer (wc : WsClient) (ts : TimerSys) : WsClient × TimerSys :=
  (wc, ⟨ts.pending.tail, ts.nextId⟩)

/-- Connection-lifecycle events relevant to the reconnect timer. -/
inductive WsEvent where
  | close
  | fire
deriving DecidableEq

/-- One event step. -/
def wsStep (s : WsClient × TimerSys) : WsEvent → WsClient × TimerSys
  | WsEvent.close => onClose s.1 s.2
  | WsEvent.fire => fireTimer s.1 s.2

/-- Initial state: connected, no reconnect timer pending. -/
def wsInit : WsClient × TimerSys := (⟨true, none⟩, ⟨[], 0⟩)

/-- Run a sequence of connection events from the initial state. -/
def wsRun (evs : List WsEvent) : WsClient × TimerSys :=
  evs.foldl wsStep wsInit

/-! ## Capture sink (`recorder.ondataavailable`) -/

/-- `WebSocket.OPEN`. -/
def WebSocketOPEN : Nat := 1

/-- What the capture sink does with one recorded chunk. -/
inductive ChunkAction where
  | dropped
  | sent (size : Nat)
deriving DecidableEq

/-- `recorder.ondataavailable`: skip empty chunks, skip when the socket is
not open, skip when `socket.bufferedAmount > 16_000_000`, otherwise send.
Every branch returns normally — no branch throws. -/
def onDataAvailable (size readyState bufferedAmount : Nat) : ChunkAction :=
  if size = 0 then ChunkAction.dropped
  else if readyState ≠ WebSocketOPEN then ChunkAction.dropped
  else if 16000000 < bufferedAmount then ChunkAction.dropped
  else ChunkAction.sent size

/-! ## Orchestrator control flow (`main()` of the stream script)

The scenario record abstracts the environment observed by `main()`:
whether the broadcast page answered the reachability probe, whether the
canvas selector appeared, whether a first capture chunk arrived within the
10 s readiness window, and the encoder's eventual exit code.
-/

/-- Environment outcomes observed by one run of `main()`. -/
structure OrchScenario where
  reachable : Bool
  selectorFound : Bool
  chunkWithin10s : Bool
  ffmpegExitCode : Nat
deriving DecidableEq

/-- Result of the orchestrator process: its exit code and whether the
`shutdown` routine (which closes the browser, the relay server, the
encoder's stdin and kills the subprocesses) was invoked. -/
structure OrchResult where
  exitCode : Nat
  shutdownCalled : Bool
deriving DecidableEq

/-- The control flow of `main()` followed by `main().catch(... exit(1))`:
any rejection before the `firstChunk` await resolves — unreachable page,
missing canvas, or the 10 s readiness timeout — propagates to the catch
handler, which logs and calls `process.exit(1)` without ever reaching the
`shutdown` definition; only the normal path (first chunk observed) runs
`shutdown()` after `ffmpeg.exited` and mirrors the encoder's exit code. -/
def runOrchestrator (sc : OrchScenario) : OrchResult :=
  if sc.reachable = false then ⟨1, false⟩
  else if sc.selectorFound = false then ⟨1, false⟩
  else if sc.chunkWithin10s = false then ⟨1, false⟩
  else ⟨sc.ffmpegExitCode, true⟩

/-! ## Concrete sample data used by counterexamples and witnesses -/

/-- A sample contestant. -/
def mAlpha : Model := ⟨"a", "Alpha"⟩

/-- A second sample contestant. -/
def mBeta : Model := ⟨"b", "Beta"⟩

/-- A sample judge. -/
def mJudge : Model := ⟨"j", "Judge"⟩

/-- A fresh task for a model. -/
def taskFor (mo : Model) : TaskInfo := ⟨mo, 0, none, none, none⟩

/-- A completed judge vote for a model. -/
def voteFor (mo : Model) : VoteInfo := ⟨mJudge, 0, none, some mo, false⟩

/-- A vote that carries both a `votedFor` and the error flag. -/
def erroredVoteFor (mo : Model) : VoteInfo := ⟨mJudge, 0, none, some mo, true⟩

/-- A sample round with the given phase, contestants and votes. -/
def sampleRound (ph : Phase) (a b : Model) (vs : List VoteInfo) : RoundState :=
  ⟨1, ph, mJudge, taskFor mJudge, some "Q", (a, b), (taskFor a, taskFor b),
    vs, none, none, none, none, none⟩

/-- A sample game state with no active and no completed round. -/
def emptyGame : GameState := ⟨none, none, [], [], false, false, 0⟩

/-- A fresh client state (page just loaded). -/
def freshClient : ClientState := ⟨none, none, 0, 0, none⟩

/-- A client state that has already recorded protocol version `v1`. -/
def seasonedClient : ClientState := ⟨some emptyGame, some 10, 3, 5, some "v1"⟩

/-- The reconnect-timer invariant: at most one pending timer, every
pending timer is the currently tracked reconnect timer, and its delay is
the fixed 1000 ms. -/
def WsInv (s : WsClient × TimerSys) : Prop :=
  s.2.pending.length ≤ 1 ∧
    ∀ p ∈ s.2.pending, p.2 = 1000 ∧ s.1.reconnectTimer = some p.1

/-! ## Lemmas about the text-layout loops -/

/-- The binary-search loop finishes whenever the fuel exceeds the size of
the `[low, high]` interval: each iteration moves `low` past `mid` or
`high` below `mid`. -/
theorem bsearchF_isSome (m : List Char → Nat) (w : Nat) (r : List Char) :
    ∀ fuel low high best, 1 ≤ low → 1 ≤ fuel → (low ≤ high → high + 1 - low < fuel) →
      (bsearchF m w r fuel low high best).isSome = true := by
  intro fuel
  induction fuel with
  | zero => intro low high best _ h1 _; omega
  | succ n ih =>
    intro low high best hlow _ h2
    simp only [bsearchF]
    by_cases hlh : low ≤ high
    · have hm1 : low ≤ (low + high) / 2 := by omega
      have hm2 : (low + high) / 2 ≤ high := by omega
      have he : high + 1 - low < n + 1 := h2 hlh
      rw [if_pos hlh]
      by_cases hfit : m (r.take ((low + high) / 2)) ≤ w
      · rw [if_pos hfit]
        exact ih ((low + high) / 2 + 1) high ((low + high) / 2)
          (by omega) (by omega) (fun h => by omega)
      · rw [if_neg hfit]
        exact ih low ((low + high) / 2 - 1) best hlow (by omega) (fun h => by omega)
    · rw [if_neg hlh]
      rfl

/-- The binary search never returns less than `min low best`; with the
source's initial `low = best = 1` the chosen cut is at least one
character. -/
theorem bsearchF_pos (m : List Char → Nat) (w : Nat) (r : List Char) :
    ∀ fuel low high best b, 1 ≤ low → 1 ≤ best →
      bsearchF m w r fuel low high best = some b → 1 ≤ b := by
  intro fuel
  induction fuel with
  | zero => intro low high best b _ _ h; simp [bsearchF] at h
  | succ n ih =>
    intro low high best b hlow hbest h
    simp only [bsearchF] at h
    by_cases hlh : low ≤ high
    · rw [if_pos hlh] at h
      by_cases hfit : m (r.take ((low + high) / 2)) ≤ w
      · rw [if_pos hfit] at h
        exact ih ((low + high) / 2 + 1) high ((low + high) / 2) b (by omega) (by omega) h
      · rw [if_neg hfit] at h
        exact ih low ((low + high) / 2 - 1) best b hlow hbest h
    · rw [if_neg hlh] at h
      injection h with hb
      omega

/-- If the prefix of length `best` fits, so does the prefix the binary
search returns: `best` is only ever replaced by a probed `mid` whose
prefix was measured to fit. -/
theorem bsearchF_fits (m : List Char → Nat) (w : Nat) (r : List Char) :
    ∀ fuel low high best b, m (r.take best) ≤ w →
      bsearchF m w r fuel low high best = some b → m (r.take b) ≤ w := by
  intro fuel
  induction fuel with
  | zero => intro low high best b _ h; simp [bsearchF] at h
  | succ n ih =>
    intro low high best b hbest h
    simp only [bsearchF] at h
    by_cases hlh : low ≤ high
    · rw [if_pos hlh] at h
      by_cases hfit : m (r.take ((low + high) / 2)) ≤ w
      · rw [if_pos hfit] at h
        exact ih ((low + high) / 2 + 1) high ((low + high) / 2) b hfit h
      · rw [if_neg hfit] at h
        exact ih low ((low + high) / 2 - 1) best b hbest h
    · rw [if_neg hlh] at h
      cases h
      exact hbest

/-- The word-cutting loop finishes with fuel `word.length`: every
iteration removes `best ≥ 1` characters from the remainder. -/
theorem splitGoF_isSome (m : List Char → Nat) (w : Nat) :
    ∀ fuel r, r.length ≤ fuel → (splitGoF m w fuel r).isSome = true := by
  intro fuel
  induction fuel with
  | zero =>
    intro r hr
    cases r with
    | nil => rfl
    | cons c cs => simp at hr
  | succ n ih =>
    intro r hr
    cases r with
    | nil => rfl
    | cons c cs =>
      have hbs := bsearchF_isSome m w (c :: cs) ((c :: cs).length + 1) 1 (c :: cs).length 1
        (by omega) (by omega) (by intro _; omega)
      obtain ⟨best, hbest⟩ := Option.isSome_iff_exists.mp hbs
      have hpos := bsearchF_pos m w (c :: cs) ((c :: cs).length + 1) 1 (c :: cs).length 1 best
        (by omega) (by omega) hbest
      have hlen : ((c :: cs).drop best).length ≤ n := by
        simp only [List.length_drop, List.length_cons] at *
        omega
      have hrec := ih ((c :: cs).drop best) hlen
      obtain ⟨rest, hrest⟩ := Option.isSome_iff_exists.mp hrec
      simp only [splitGoF, hbest, hrest]
      rfl

/-- Every piece the cutting loop produces fits, provided every single
character fits: the binary search starts from the fitting one-character
prefix and only moves to prefixes measured to fit. -/
theorem splitGoF_fits (m : List Char → Nat) (w : Nat) (hc : ∀ c, m [c] ≤ w) :
    ∀ fuel r ps, splitGoF m w fuel r = some ps → ∀ p ∈ ps, m p ≤ w := by
  intro fuel
  induction fuel with
  | zero =>
    intro r ps h p hp
    cases r with
    | nil => cases h; simp at hp
    | cons c cs => simp [splitGoF] at h
  | succ n ih =>
    intro r ps h p hp
    cases r with
    | nil => cases h; simp at hp
    | cons c cs =>
      cases hbest : bsearchF m w (c :: cs) ((c :: cs).length + 1) 1 (c :: cs).length 1 with
      | none =>
        simp only [splitGoF, hbest] at h
        exact Option.noConfusion h
      | some best =>
        cases hrest : splitGoF m w n ((c :: cs).drop best) with
        | none =>
          simp only [splitGoF, hbest, hrest] at h
          exact Option.noConfusion h
        | some rest =>
          simp only [splitGoF, hbest, hrest, Option.some.injEq] at h
          subst h
          cases hp with
          | head =>
            have hone : m ((c :: cs).take 1) ≤ w := by
              simpa using hc c
            exact bsearchF_fits m w (c :: cs) ((c :: cs).length + 1) 1 (c :: cs).length 1
              best hone hbest
          | tail _ hmem => exact ih ((c :: cs).drop best) rest hrest p hmem

/-- `splitWordToFit` always succeeds. -/
theorem splitWordToFit_isSome (m : List Char → Nat) (w : Nat) (word : List Char) :
    (splitWordToFit m w word).isSome = true := by
  unfold splitWordToFit
  by_cases he : word.isEmpty
  · rw [if_pos he]; rfl
  · rw [if_neg he]
    by_cases hf : m word ≤ w
    · rw [if_pos hf]; rfl
    · rw [if_neg hf]
      exact splitGoF_isSome m w word.length word (le_refl _)

/-- Every segment `splitWordToFit` returns fits, provided every single
character fits. -/
theorem splitWordToFit_fits (m : List Char → Nat) (w : Nat) (hc : ∀ c, m [c] ≤ w)
    (word : List Char) (segs : List (List Char))
    (h : splitWordToFit m w word = some segs) : ∀ s ∈ segs, m s ≤ w := by
  unfold splitWordToFit at h
  by_cases he : word.isEmpty
  · rw [if_pos he] at h; cases h; simp
  · rw [if_neg he] at h
    by_cases hf : m word ≤ w
    · rw [if_pos hf] at h
      cases h
      intro s hs
      simp at hs
      rw [hs]
      exact hf
    · rw [if_neg hf] at h
      exact splitGoF_fits m w hc word.length word segs h

/-- The ellipsis-trim loop finishes with fuel `t.length`: each iteration
drops the final character and the loop stops at length 3. -/
theorem trimF_isSome (m : List Char → Nat) (w : Nat) :
    ∀ fuel t, t.length ≤ fuel + 3 → (trimF m w fuel t).isSome = true := by
  intro fuel
  induction fuel with
  | zero =>
    intro t ht
    simp only [trimF]
    by_cases hcond : 3 < t.length ∧ w < m (t ++ ellipsisChars)
    · omega
    · rw [if_neg hcond]; rfl
  | succ n ih =>
    intro t ht
    simp only [trimF]
    by_cases hcond : 3 < t.length ∧ w < m (t ++ ellipsisChars)
    · rw [if_pos hcond]
      exact ih t.dropLast (by simp [List.length_dropLast]; omega)
    · rw [if_neg hcond]; rfl

/-- Lines produced by `pushCurrent` all fit when the existing lines fit
and the pending line is empty or fits. -/
theorem pushCurrent_fits (m : List Char → Nat) (w : Nat)
    (lines : List (List Char)) (current : List Char)
    (hl : ∀ l ∈ lines, m l ≤ w) (hcur : current = [] ∨ m current ≤ w) :
    ∀ l ∈ pushCurrent lines current, m l ≤ w := by
  intro l hmem
  unfold pushCurrent at hmem
  by_cases he : current.isEmpty
  · rw [if_pos he] at hmem
    exact hl l hmem
  · rw [if_neg he] at hmem
    rcases List.mem_append.mp hmem with h | h
    · exact hl l h
    · have : l = current := by simpa using h
      subst this
      rcases hcur with h0 | h0
      · subst h0; simp at he
      · exact h0

/-- The segment-packing loop preserves the invariant that every flushed
line fits and the line under construction is empty or fits: `current` is
only ever replaced by a candidate measured to fit or by a segment, and a
line is only flushed from `current`. -/
theorem packSegs_fits (m : List Char → Nat) (w maxLines : Nat) :
    ∀ segs isFirst lines current,
      (∀ l ∈ lines, m l ≤ w) → (current = [] ∨ m current ≤ w) →
      (∀ s ∈ segs, m s ≤ w) →
      (∀ l ∈ (packSegs m w maxLines segs isFirst lines current).1, m l ≤ w) ∧
        ((packSegs m w maxLines segs isFirst lines current).2.1 = [] ∨
          m (packSegs m w maxLines segs isFirst lines current).2.1 ≤ w) := by
  intro segs
  induction segs with
  | nil =>
    intro isFirst lines current hl hcur _
    simpa only [packSegs] using ⟨hl, hcur⟩
  | cons seg rest ih =>
    intro isFirst lines current hl hcur hsegs
    simp only [packSegs]
    by_cases hfit : m (current ++ segSep isFirst current ++ seg) ≤ w
    · rw [if_pos hfit]
      exact ih false lines (current ++ segSep isFirst current ++ seg) hl (Or.inr hfit)
        (fun s hs => hsegs s (List.mem_cons_of_mem _ hs))
    · rw [if_neg hfit]
      have hpush := pushCurrent_fits m w lines current hl hcur
      by_cases hbrk : maxLines - 1 ≤ (pushCurrent lines current).length
      · rw [if_pos hbrk]
        exact ⟨hpush, Or.inr (hsegs seg (List.mem_cons_self _ _))⟩
      · rw [if_neg hbrk]
        exact ih false (pushCurrent lines current) seg hpush
          (Or.inr (hsegs seg (List.mem_cons_self _ _)))
          (fun s hs => hsegs s (List.mem_cons_of_mem _ hs))

/-- The word loop always succeeds (its only failure sources are the
fuelled word-splitting loops, which always have enough fuel). -/
theorem packWordsF_isSome (m : List Char → Nat) (w maxLines : Nat) :
    ∀ words lines current,
      (packWordsF m w maxLines words lines current).isSome = true := by
  intro words
  induction words with
  | nil => intro lines current; rfl
  | cons word rest ih =>
    intro lines current
    cases hsw : splitWordToFit m w word with
    | none =>
      have := splitWordToFit_isSome m w word
      rw [hsw] at this
      cases this
    | some segs =>
      rcases hps : packSegs m w maxLines segs true lines current with ⟨lines1, current1, brk⟩
      simp only [packWordsF, hsw, hps]
      by_cases hstop : (brk || decide (maxLines - 1 ≤ lines1.length)) = true
      · rw [if_pos hstop]; rfl
      · rw [if_neg hstop]; exact ih lines1 current1

/-- The word loop preserves the fitting invariant, provided every single
character fits. -/
theorem packWordsF_fits (m : List Char → Nat) (w maxLines : Nat)
    (hc : ∀ c, m [c] ≤ w) :
    ∀ words lines current res,
      (∀ l ∈ lines, m l ≤ w) → (current = [] ∨ m current ≤ w) →
      packWordsF m w maxLines words lines current = some res →
      (∀ l ∈ res.1, m l ≤ w) ∧ (res.2 = [] ∨ m res.2 ≤ w) := by
  intro words
  induction words with
  | nil =>
    intro lines current res hl hcur h
    cases h
    exact ⟨hl, hcur⟩
  | cons word rest ih =>
    intro lines current res hl hcur h
    cases hsw : splitWordToFit m w word with
    | none =>
      have := splitWordToFit_isSome m w word
      rw [hsw] at this
      cases this
    | some segs =>
      rcases hps : packSegs m w maxLines segs true lines current with ⟨lines1, current1, brk⟩
      simp only [packWordsF, hsw, hps] at h
      have hsegs := splitWordToFit_fits m w hc word segs hsw
      have hinv := packSegs_fits m w maxLines segs true lines current hl hcur hsegs
      rw [hps] at hinv
      by_cases hstop : (brk || decide (maxLines - 1 ≤ lines1.length)) = true
      · rw [if_pos hstop] at h
        cases h
        exact hinv
      · rw [if_neg hstop] at h
        exact ih lines1 current1 res hinv.1 hinv.2 h

/-- `capLines` caps the number of lines at `maxLines`. -/
theorem capLines_length (maxLines : Nat) (lines : List (List Char)) :
    (capLines maxLines lines).length ≤ maxLines := by
  unfold capLines
  by_cases h : maxLines < lines.length
  · rw [if_pos h]
    simp
  · rw [if_neg h]
    omega

/-- `capLines` only keeps existing lines. -/
theorem capLines_subset (maxLines : Nat) (lines : List (List Char)) :
    ∀ l ∈ capLines maxLines lines, l ∈ lines := by
  intro l hl
  unfold capLines at hl
  by_cases h : maxLines < lines.length
  · rw [if_pos h] at hl
    exact List.take_subset _ _ hl
  · rw [if_neg h] at hl
    exact hl

/-- The ellipsis stage always succeeds (its trim loop has enough fuel). -/
theorem trimStage_isSome (m : List Char → Nat) (w maxLines : Nat) (hasWords : Bool)
    (lines : List (List Char)) :
    (trimStage m w maxLines hasWords lines).isSome = true := by
  unfold trimStage
  by_cases hcond : hasWords = true ∧ lines.length = maxLines
  · rw [if_pos hcond]
    by_cases hover : w < m (lines.getD (maxLines - 1) [])
    · rw [if_pos hover]
      have ht := trimF_isSome m w (lines.getD (maxLines - 1) []).length
        (lines.getD (maxLines - 1) []) (by omega)
      obtain ⟨t, htv⟩ := Option.isSome_iff_exists.mp ht
      rw [htv]
      rfl
    · rw [if_neg hover]; rfl
  · rw [if_neg hcond]; rfl

/-- The ellipsis stage never changes the number of lines. -/
theorem trimStage_length (m : List Char → Nat) (w maxLines : Nat) (hasWords : Bool)
    (lines out : List (List Char)) (h : trimStage m w maxLines hasWords lines = some out) :
    out.length = lines.length := by
  unfold trimStage at h
  by_cases hcond : hasWords = true ∧ lines.length = maxLines
  · rw [if_pos hcond] at h
    by_cases hover : w < m (lines.getD (maxLines - 1) [])
    · rw [if_pos hover] at h
      cases htv : trimF m w (lines.getD (maxLines - 1) []).length
        (lines.getD (maxLines - 1) []) with
      | none => rw [htv] at h; cases h
      | some t =>
        rw [htv] at h
        cases h
        simp
    · rw [if_neg hover] at h
      cases h
      rfl
  · rw [if_neg hcond] at h
    cases h
    rfl

/-- When every line fits, the ellipsis stage leaves the lines unchanged
(the overflow guard `measure(last) > maxWidth` cannot fire), so the output
still fits. -/
theorem trimStage_fits (m : List Char → Nat) (w maxLines : Nat) (hasWords : Bool)
    (lines out : List (List Char)) (hl : ∀ l ∈ lines, m l ≤ w)
    (h : trimStage m w maxLines hasWords lines = some out) :
    ∀ l ∈ out, m l ≤ w := by
  by_cases hnil : lines = []
  · subst hnil
    have hlen := trimStage_length m w maxLines hasWords [] out h
    have : out = [] := List.length_eq_zero.mp (by simpa using hlen)
    subst this
    intro l hmem
    cases hmem
  · unfold trimStage at h
    by_cases hcond : hasWords = true ∧ lines.length = maxLines
    · rw [if_pos hcond] at h
      by_cases hover : w < m (lines.getD (maxLines - 1) [])
      · exfalso
        have hpos : 0 < lines.length := List.length_pos.mpr hnil
        have hidx : maxLines - 1 < lines.length := by omega
        have hmem : lines.getD (maxLines - 1) [] ∈ lines := by
          rw [List.getD_eq_getElem lines [] hidx]
          exact List.getElem_mem hidx
        exact absurd (hl _ hmem) (by omega)
      · rw [if_neg hover] at h
        cases h
        exact hl
    · rw [if_neg hcond] at h
      cases h
      exact hl

/-- `finishLines` always succeeds. -/
theorem finishLines_isSome (m : List Char → Nat) (w maxLines : Nat) (hasWords : Bool)
    (lines0 : List (List Char)) (current : List Char) :
    (finishLines m w maxLines hasWords lines0 current).isSome = true :=
  trimStage_isSome m w maxLines hasWords _

/-- `finishLines` returns at most `maxLines` lines. -/
theorem finishLines_length (m : List Char → Nat) (w maxLines : Nat) (hasWords : Bool)
    (lines0 : List (List Char)) (current : List Char) (out : List (List Char))
    (h : finishLines m w maxLines hasWords lines0 current = some out) :
    out.length ≤ maxLines := by
  have := trimStage_length m w maxLines hasWords _ out h
  rw [this]
  exact capLines_length maxLines _

/-- `finishLines` keeps every line fitting when its inputs fit. -/
theorem finishLines_fits (m : List Char → Nat) (w maxLines : Nat) (hasWords : Bool)
    (lines0 : List (List Char)) (current : List Char) (out : List (List Char))
    (hl : ∀ l ∈ lines0, m l ≤ w) (hcur : current = [] ∨ m current ≤ w)
    (h : finishLines m w maxLines hasWords lines0 current = some out) :
    ∀ l ∈ out, m l ≤ w := by
  refine trimStage_fits m w maxLines hasWords _ out (fun l hmem => ?_) h
  exact pushCurrent_fits m w lines0 current hl hcur l (capLines_subset maxLines _ l hmem)

/-- `textLinesF` always succeeds: every loop of the source `textLines`
terminates within its fuel bound. -/
theorem textLinesF_isSome_aux (m : List Char → Nat) (text : List Char) (w maxLines : Nat) :
    (textLinesF m text w maxLines).isSome = true := by
  unfold textLinesF
  have hp := packWordsF_isSome m w maxLines (wordsOf text) [] []
  obtain ⟨res, hres⟩ := Option.isSome_iff_exists.mp hp
  rcases res with ⟨lines, current⟩
  rw [hres]
  exact finishLines_isSome m w maxLines _ lines current

/-- Claim C1 (counterexample): as stated the claim is false.  With the
font measuring every character two units wide, `maxWidth = 1 > 0` and
`maxLines = 1 ≥ 1`, the single character `a` is wider than `maxWidth`;
`textLines` returns the line `a...` whose measured width (8) exceeds
`maxWidth`, because the binary search cannot cut below one character and
the ellipsis trim stops at three characters. -/
theorem textLines_claim_counterexample :
    0 < 1 ∧ 1 ≤ 1 ∧
    textLines (fun s => 2 * s.length) ['a'] 1 1 = [['a', '.', '.', '.']] ∧
    ¬(∀ l ∈ textLines (fun s => 2 * s.length) ['a'] 1 1, 2 * l.length ≤ 1) := by
  decide

/-- Claim C1 (amended): for every input string, positive `maxWidth`, font
in which every single character fits within `maxWidth`, and
`maxLines ≥ 1`, `textLines` returns at most `maxLines` lines, every
returned line has measured width at most `maxWidth`, and an input of
length 0 yields zero lines. -/
theorem textLines_spec_amended (m : List Char → Nat) (text : List Char)
    (w maxLines : Nat) (hw : 0 < w) (hml : 1 ≤ maxLines) (hc : ∀ c, m [c] ≤ w) :
    (textLines m text w maxLines).length ≤ maxLines ∧
    (∀ l ∈ textLines m text w maxLines, m l ≤ w) ∧
    (text = [] → textLines m text w maxLines = []) := by
  have hpw := packWordsF_isSome m w maxLines (wordsOf text) [] []
  obtain ⟨res, hres⟩ := Option.isSome_iff_exists.mp hpw
  rcases res with ⟨lines, current⟩
  have hfin := finishLines_isSome m w maxLines (!(wordsOf text).isEmpty) lines current
  obtain ⟨out, hout⟩ := Option.isSome_iff_exists.mp hfin
  have htl : textLines m text w maxLines = out := by
    unfold textLines textLinesF
    rw [hres]
    simp only [hout, Option.getD_some]
  refine ⟨?_, ?_, ?_⟩
  · rw [htl]
    exact finishLines_length m w maxLines _ lines current out hout
  · rw [htl]
    have hinv := packWordsF_fits m w maxLines hc (wordsOf text) [] [] (lines, current)
      (by intro l hl; cases hl) (Or.inl rfl) hres
    exact finishLines_fits m w maxLines _ lines current out hinv.1 hinv.2 hout
  · intro htext
    subst htext
    have h1 : wordsOf [] = [] := rfl
    simp [textLines, textLinesF, h1, finishLines, trimStage, capLines, pushCurrent, packWordsF]

/-- Witness for the amended claim C1 at a concrete input. -/
theorem textLines_spec_amended_witness :
    (textLines (fun s => s.length) ['a', 'b', ' ', 'c', 'd'] 2 2).length ≤ 2 ∧
    (∀ l ∈ textLines (fun s => s.length) ['a', 'b', ' ', 'c', 'd'] 2 2, l.length ≤ 2) ∧
    (['a', 'b', ' ', 'c', 'd'] = ([] : List Char) →
      textLines (fun s => s.length) ['a', 'b', ' ', 'c', 'd'] 2 2 = []) :=
  textLines_spec_amended (fun s => s.length) ['a', 'b', ' ', 'c', 'd'] 2 2
    (by decide) (by decide) (fun c => by simp)

/-- Claim C10: `textLines` terminates for every input string, measure
function, width and line cap: the fuelled embedding of its loops — fuel
`remaining.length + 1` for the binary search (whose interval shrinks each
step), `word.length` for the word-split loop (each iteration removes
`best ≥ 1` characters), and `last.length` for the ellipsis-trim loop
(which strictly shortens the line and stops at length 3) — never runs
out of fuel. -/
theorem textLines_terminates (m : List Char → Nat) (text : List Char) (w maxLines : Nat) :
    (textLinesF m text w maxLines).isSome = true :=
  textLinesF_isSome_aux m text w maxLines

/-- Claim C2: for a null snapshot the renderer shows the waiting
placeholder, and for every snapshot with `done = false` the round
selection follows the fallback chain: an active round in the `prompting`
phase with no prompt text is displaced by `lastCompleted` when present;
otherwise `active` is rendered, falling back to `lastCompleted`, falling
back to the waiting placeholder. -/
theorem draw_round_selection :
    draw none = DrawChoice.waiting ∧
    ∀ s : GameState, s.done = false →
      draw (some s) =
        match s.active, s.lastCompleted with
        | some a, some lc =>
          if a.phase = Phase.prompting ∧ strTruthy a.prompt = false
          then DrawChoice.round lc else DrawChoice.round a
        | some a, none => DrawChoice.round a
        | none, some lc => DrawChoice.round lc
        | none, none => DrawChoice.waiting := by
  refine ⟨rfl, ?_⟩
  intro s hdone
  rcases ha : s.active with _ | a <;> rcases hlc : s.lastCompleted with _ | lc
  · simp [draw, hdone, displayRound, isNextPrompting, ha, hlc]
  · simp [draw, hdone, displayRound, isNextPrompting, ha, hlc]
  · simp [draw, hdone, displayRound, isNextPrompting, ha, hlc]
  · by_cases hcond : a.phase = Phase.prompting ∧ strTruthy a.prompt = false
    · simp [draw, hdone, displayRound, isNextPrompting, ha, hlc, hcond.1, hcond.2]
    · have hnp : isNextPrompting s = false := by
        simp [isNextPrompting, ha]
        intro h1
        by_contra h2
        exact hcond ⟨h1, by simpa using h2⟩
      simp [draw, hdone, displayRound, ha, hlc, hnp, hcond]

/-- Witness for claim C2: a snapshot with neither an active nor a
completed round renders the waiting placeholder. -/
theorem draw_round_selection_witness :
    draw (some emptyGame) = DrawChoice.waiting :=
  draw_round_selection.2 emptyGame rfl

/-- Claim C3 (counterexample): as stated the claim is false on the
`drawContestantCard` derivation.  (1) When both contestants carry the same
name, one vote increments both counts (the two `if` tests are
independent), so `votesA + votesB = 2 > 1 = votes.length`.  (2) A vote
with the error flag set but a `votedFor` naming contestant A still
increments `votesA`: the derivation never consults `error`. -/
theorem vote_counts_claim_counterexample :
    (cardVotesA (sampleRound Phase.voting mAlpha mAlpha [voteFor mAlpha]) +
        cardVotesB (sampleRound Phase.voting mAlpha mAlpha [voteFor mAlpha]) = 2 ∧
      (sampleRound Phase.voting mAlpha mAlpha [voteFor mAlpha]).votes.length = 1) ∧
    ((erroredVoteFor mAlpha).error = true ∧
      cardVotesA (sampleRound Phase.voting mAlpha mBeta [erroredVoteFor mAlpha]) = 1) := by
  decide

/-- Claim C3 (amended): when the two contestants have distinct names the
`drawContestantCard` counts satisfy `votesA + votesB ≤ votes.length` (the
`HistoryCard` counts satisfy it unconditionally thanks to the `else if`);
a vote whose `votedFor` is absent or names neither contestant contributes
to neither count; and a vote with `votedFor` present contributes to a
contestant's count exactly when it equals that contestant's name — the
error flag is not consulted. -/
theorem vote_counts_amended :
    (∀ (nameA nameB : String) (votes : List VoteInfo), nameA ≠ nameB →
        (cardCounts nameA nameB votes).1 + (cardCounts nameA nameB votes).2 ≤
          votes.length) ∧
    (∀ (nameA nameB : String) (votes : List VoteInfo),
        (historyCounts nameA nameB votes).1 + (historyCounts nameA nameB votes).2 ≤
          votes.length) ∧
    (∀ (nameA nameB : String) (v : VoteInfo) (votes : List VoteInfo),
        (v.votedFor = none ∨
          ∃ mdl, v.votedFor = some mdl ∧ mdl.name ≠ nameA ∧ mdl.name ≠ nameB) →
        cardCounts nameA nameB (v :: votes) = cardCounts nameA nameB votes ∧
        historyCounts nameA nameB (v :: votes) = historyCounts nameA nameB votes) ∧
    (∀ (nameA nameB : String) (v : VoteInfo) (mdl : Model) (votes : List VoteInfo),
        v.votedFor = some mdl →
        (cardCounts nameA nameB (v :: votes)).1 =
          (if mdl.name = nameA then 1 else 0) + (cardCounts nameA nameB votes).1 ∧
        (cardCounts nameA nameB (v :: votes)).2 =
          (if mdl.name = nameB then 1 else 0) + (cardCounts nameA nameB votes).2) := by
  refine ⟨?_, ?_, ?_, ?_⟩
  · intro nameA nameB votes hAB
    induction votes with
    | nil => simp [cardCounts]
    | cons v vs ih =>
      cases hv : v.votedFor with
      | none =>
        simp only [cardCounts, voteDelta, hv, List.length_cons]
        omega
      | some mdl =>
        by_cases hA : mdl.name = nameA
        · have hB : ¬mdl.name = nameB := fun hB => hAB (hA ▸ hB)
          simp only [cardCounts, voteDelta, hv, if_pos hA, if_neg hB, List.length_cons]
          omega
        · simp only [cardCounts, voteDelta, hv, if_neg hA, List.length_cons]
          by_cases hB : mdl.name = nameB
          · rw [if_pos hB]; omega
          · rw [if_neg hB]; omega
  · intro nameA nameB votes
    induction votes with
    | nil => simp [historyCounts]
    | cons v vs ih =>
      cases hv : v.votedFor with
      | none =>
        simp only [historyCounts, historyDelta, hv, List.length_cons]
        omega
      | some mdl =>
        simp only [historyCounts, historyDelta, hv, List.length_cons]
        by_cases hA : mdl.name = nameA
        · rw [if_pos hA]; omega
        · rw [if_neg hA]
          by_cases hB : mdl.name = nameB
          · rw [if_pos hB]; omega
          · rw [if_neg hB]; omega
  · intro nameA nameB v votes hor
    rcases hor with hnone | ⟨mdl, hsome, hA, hB⟩
    · constructor
      · simp [cardCounts, voteDelta, hnone]
      · simp [historyCounts, historyDelta, hnone]
    · constructor
      · simp [cardCounts, voteDelta, hsome, hA, hB]
      · simp [historyCounts, historyDelta, hsome, hA, hB]
  · intro nameA nameB v mdl votes hsome
    constructor
    · simp [cardCounts, voteDelta, hsome]
    · simp [cardCounts, voteDelta, hsome]

/-- Witness for the amended claim C3 at concrete inputs. -/
theorem vote_counts_amended_witness :
    ((cardCounts "Alpha" "Beta" [voteFor mAlpha]).1 +
        (cardCounts "Alpha" "Beta" [voteFor mAlpha]).2 ≤ 1) ∧
    ((historyCounts "Alpha" "Beta" [voteFor mAlpha]).1 +
        (historyCounts "Alpha" "Beta" [voteFor mAlpha]).2 ≤ 1) ∧
    (cardCounts "Alpha" "Beta" [voteFor mJudge] = cardCounts "Alpha" "Beta" [] ∧
      historyCounts "Alpha" "Beta" [voteFor mJudge] = historyCounts "Alpha" "Beta" []) ∧
    ((cardCounts "Alpha" "Beta" (voteFor mAlpha :: [])).1 =
        (if mAlpha.name = "Alpha" then 1 else 0) + (cardCounts "Alpha" "Beta" []).1 ∧
      (cardCounts "Alpha" "Beta" (voteFor mAlpha :: [])).2 =
        (if mAlpha.name = "Beta" then 1 else 0) + (cardCounts "Alpha" "Beta" []).2) :=
  ⟨vote_counts_amended.1 "Alpha" "Beta" [voteFor mAlpha] (by decide),
   vote_counts_amended.2.1 "Alpha" "Beta" [voteFor mAlpha],
   vote_counts_amended.2.2.1 "Alpha" "Beta" (voteFor mJudge) []
     (Or.inr ⟨mJudge, rfl, by decide, by decide⟩),
   vote_counts_amended.2.2.2 "Alpha" "Beta" (voteFor mAlpha) mAlpha [] rfl⟩

/-- Claim C4 (counterexample): as stated the claim is false for the
history view.  `HistoryCard` renders the winner badge from
`votesA > votesB` alone, with no phase check: a round still in the
`voting` phase with one vote for contestant A gets the badge. -/
theorem winner_badge_claim_counterexample :
    historyIsAWinner (sampleRound Phase.voting mAlpha mBeta [voteFor mAlpha]) = true ∧
    (sampleRound Phase.voting mAlpha mBeta [voteFor mAlpha]).phase ≠ Phase.done := by
  decide

/-- Claim C4 (amended): in the canvas renderer the winner badge appears
iff the phase is `done` and the contestant's derived count strictly
exceeds the other's; in the history view the badge appears iff the
derived count strictly exceeds the other's, with no phase check; equal
counts produce no badge in either view. -/
theorem winner_badge_amended :
    (∀ (r : RoundState) (task : TaskInfo),
        cardIsWinner r task = true ↔
          r.phase = Phase.done ∧
            (if r.answerTasks.1.model.name = task.model.name
             then cardVotesB r < cardVotesA r
             else cardVotesA r < cardVotesB r)) ∧
    (∀ (r : RoundState) (task : TaskInfo),
        cardVotesA r = cardVotesB r → cardIsWinner r task = false) ∧
    (∀ r : RoundState, historyIsAWinner r = true ↔ historyVotesB r < historyVotesA r) ∧
    (∀ r : RoundState, historyIsBWinner r = true ↔ historyVotesA r < historyVotesB r) ∧
    (∀ r : RoundState, historyVotesA r = historyVotesB r →
        historyIsAWinner r = false ∧ historyIsBWinner r = false) := by
  refine ⟨?_, ?_, ?_, ?_, ?_⟩
  · intro r task
    by_cases hf : r.answerTasks.1.model.name = task.model.name
    · simp [cardIsWinner, cardVotesA, cardVotesB, hf]
    · simp [cardIsWinner, cardVotesA, cardVotesB, hf]
  · intro r task heq
    simp only [cardVotesA, cardVotesB] at heq
    by_cases hf : r.answerTasks.1.model.name = task.model.name
    · simp [cardIsWinner, cardVotesA, cardVotesB, hf, heq]
    · simp [cardIsWinner, cardVotesA, cardVotesB, hf, heq]
  · intro r
    simp [historyIsAWinner]
  · intro r
    simp [historyIsBWinner]
  · intro r heq
    constructor
    · simp [historyIsAWinner, heq]
    · simp [historyIsBWinner, heq]

/-- Witness for the amended claim C4: a finished round with one vote each
way shows no badge anywhere. -/
theorem winner_badge_amended_witness :
    cardIsWinner (sampleRound Phase.done mAlpha mBeta [voteFor mAlpha, voteFor mBeta])
        (taskFor mAlpha) = false ∧
    historyIsAWinner (sampleRound Phase.done mAlpha mBeta [voteFor mAlpha, voteFor mBeta]) =
        false ∧
    historyIsBWinner (sampleRound Phase.done mAlpha mBeta [voteFor mAlpha, voteFor mBeta]) =
        false :=
  ⟨winner_badge_amended.2.1 (sampleRound Phase.done mAlpha mBeta [voteFor mAlpha, voteFor mBeta])
      (taskFor mAlpha) (by decide),
   (winner_badge_amended.2.2.2.2 (sampleRound Phase.done mAlpha mBeta
      [voteFor mAlpha, voteFor mBeta]) (by decide)).1,
   (winner_badge_amended.2.2.2.2 (sampleRound Phase.done mAlpha mBeta
      [voteFor mAlpha, voteFor mBeta]) (by decide)).2⟩

/-- Claim C5: while no version is recorded, a state message carrying a
version records it and is applied; once a version is recorded, a state
message with a different version triggers a reload and its payload is not
applied — and a reload ends processing, so it happens at most once; state
messages with the recorded version, or carrying no version, are applied
normally. -/
theorem version_handling :
    (∀ (c : ClientState) (now : Nat) (d : GameState) (tr : Int) (vc : Nat)
        (v : Option String),
        strTruthy c.knownVersion = false → strTruthy v = true →
        onMessage c now (ServerMessage.state d tr vc v) =
          MsgResult.applied (applyState now d tr vc v)) ∧
    (∀ (c : ClientState) (now : Nat) (d : GameState) (tr : Int) (vc : Nat)
        (v : Option String),
        strTruthy c.knownVersion = true → strTruthy v = true → c.knownVersion ≠ v →
        onMessage c now (ServerMessage.state d tr vc v) = MsgResult.reload) ∧
    (∀ (c : ClientState) (now : Nat) (d : GameState) (tr : Int) (vc : Nat)
        (v : Option String),
        strTruthy v = true → c.knownVersion = v →
        onMessage c now (ServerMessage.state d tr vc v) =
          MsgResult.applied (applyState now d tr vc c.knownVersion)) ∧
    (∀ (c : ClientState) (now : Nat) (d : GameState) (tr : Int) (vc : Nat)
        (v : Option String),
        strTruthy v = false →
        onMessage c now (ServerMessage.state d tr vc v) =
          MsgResult.applied (applyState now d tr vc c.knownVersion)) ∧
    (∀ (c : ClientState) (now : Nat) (msg : ServerMessage) (rest : List ServerMessage),
        onMessage c now msg = MsgResult.reload →
        runMessages c now (msg :: rest) = (c, true)) := by
  refine ⟨?_, ?_, ?_, ?_, ?_⟩
  · intro c now d tr vc v hkv hv
    simp [onMessage, hkv, hv]
  · intro c now d tr vc v hkv hv hne
    simp [onMessage, hkv, hv, hne]
  · intro c now d tr vc v hv heq
    simp [onMessage, heq, hv]
  · intro c now d tr vc v hv
    simp [onMessage, hv]
  · intro c now msg rest h
    simp [runMessages, h]

/-- Witness for claim C5 at concrete inputs: a fresh client records the
first version and applies the payload; a client that recorded `v1`
reloads on `v2` without applying, applies on `v1`, and applies a
version-less message; a reload stops processing of later messages. -/
theorem version_handling_witness :
    onMessage freshClient 7 (ServerMessage.state emptyGame 5 2 (some "v1")) =
      MsgResult.applied (applyState 7 emptyGame 5 2 (some "v1")) ∧
    onMessage seasonedClient 8 (ServerMessage.state emptyGame 5 2 (some "v2")) =
      MsgResult.reload ∧
    onMessage seasonedClient 9 (ServerMessage.state emptyGame 5 2 (some "v1")) =
      MsgResult.applied (applyState 9 emptyGame 5 2 seasonedClient.knownVersion) ∧
    onMessage seasonedClient 10 (ServerMessage.state emptyGame 5 2 none) =
      MsgResult.applied (applyState 10 emptyGame 5 2 seasonedClient.knownVersion) ∧
    runMessages seasonedClient 11
        (ServerMessage.state emptyGame 5 2 (some "v2") :: [ServerMessage.viewerCount 9]) =
      (seasonedClient, true) :=
  ⟨version_handling.1 freshClient 7 emptyGame 5 2 (some "v1") (by decide) (by decide),
   version_handling.2.1 seasonedClient 8 emptyGame 5 2 (some "v2") (by decide) (by decide)
     (by decide),
   version_handling.2.2.1 seasonedClient 9 emptyGame 5 2 (some "v1") (by decide) rfl,
   version_handling.2.2.2.1 seasonedClient 10 emptyGame 5 2 none rfl,
   version_handling.2.2.2.2 seasonedClient 11
     (ServerMessage.state emptyGame 5 2 (some "v2")) [ServerMessage.viewerCount 9]
     (version_handling.2.1 seasonedClient 11 emptyGame 5 2 (some "v2") (by decide) (by decide)
       (by decide))⟩

/-- Claim C6: a `viewerCount` message updates only the viewer counter:
the state snapshot, `totalRounds`, the recorded version and the
last-update timestamp keep their prior values. -/
theorem viewer_count_updates_only_counter :
    ∀ (c : ClientState) (now n : Nat),
      onMessage c now (ServerMessage.viewerCount n) =
        MsgResult.applied
          ⟨c.latestState, c.totalRounds, n, c.lastMessageAt, c.knownVersion⟩ := by
  intro c now n
  rfl

/-- `onClose` leaves exactly one pending reconnect timer — the freshly
scheduled one, with the fixed 1000 ms delay — when the invariant held
before. -/
theorem onClose_pending (wc : WsClient) (ts : TimerSys) (hinv : WsInv (wc, ts)) :
    ∃ id, (onClose wc ts).2.pending = [(id, 1000)] ∧
      (onClose wc ts).1.reconnectTimer = some id := by
  obtain ⟨hlen, hall⟩ := hinv
  cases hrt : wc.reconnectTimer with
  | none =>
    have hpend : ts.pending = [] := by
      cases hp : ts.pending with
      | nil => rfl
      | cons p ps =>
        have := (hall p (by rw [hp]; exact List.mem_cons_self _ _)).2
        rw [hrt] at this
        cases this
    exact ⟨ts.nextId, by simp [onClose, hrt, setTimeoutSys, hpend],
      by simp [onClose, hrt, setTimeoutSys]⟩
  | some id0 =>
    have hpend : (clearTimeoutSys ts id0).pending = [] := by
      cases hp : ts.pending with
      | nil => simp [clearTimeoutSys, hp]
      | cons p ps =>
        have hps : ps = [] := by
          have := hlen
          rw [hp] at this
          simp only [List.length_cons] at this
          exact List.length_eq_zero.mp (by omega)
        have hpid : p.1 = id0 := by
          have := (hall p (by rw [hp]; exact List.mem_cons_self _ _)).2
          rw [hrt] at this
          injection this with h'
          exact h'.symm
        simp [clearTimeoutSys, hp, hps, hpid]
    exact ⟨(clearTimeoutSys ts id0).nextId,
      by simp [onClose, hrt, setTimeoutSys, hpend],
      by simp [onClose, hrt, setTimeoutSys, clearTimeoutSys]⟩

/-- Every event step preserves the reconnect-timer invariant. -/
theorem wsStep_inv (s : WsClient × TimerSys) (e : WsEvent) (hinv : WsInv s) :
    WsInv (wsStep s e) := by
  cases e with
  | close =>
    obtain ⟨id, hpend, hrt⟩ := onClose_pending s.1 s.2 ⟨hinv.1, hinv.2⟩
    constructor
    · show (onClose s.1 s.2).2.pending.length ≤ 1
      rw [hpend]
      simp
    · intro p hp
      rw [show (wsStep s WsEvent.close).2 = (onClose s.1 s.2).2 from rfl, hpend] at hp
      simp only [List.mem_singleton] at hp
      subst hp
      exact ⟨rfl, hrt⟩
  | fire =>
    obtain ⟨hlen, hall⟩ := hinv
    constructor
    · show s.2.pending.tail.length ≤ 1
      rw [List.length_tail]
      omega
    · intro p hp
      have hmem : p ∈ s.2.pending := List.mem_of_mem_tail hp
      exact hall p hmem

/-- The invariant holds after any event sequence from the initial
state. -/
theorem wsRun_inv (evs : List WsEvent) : WsInv (wsRun evs) := by
  suffices h : ∀ (l : List WsEvent) (s : WsClient × TimerSys),
      WsInv s → WsInv (l.foldl wsStep s) by
    exact h evs wsInit ⟨by simp [wsInit], by intro p hp; cases hp⟩
  intro l
  induction l with
  | nil => intro s hs; exact hs
  | cons e rest ih =>
    intro s hs
    exact ih (wsStep s e) (wsStep_inv s e hs)

/-- Claim C7: after any sequence of disconnects and timer firings there is
at most one pending reconnect timer, every pending reconnect timer has the
fixed 1-second delay, and a further disconnect leaves exactly one pending
timer — the newly scheduled attempt (the source clears the old timer
before scheduling the new one, so two timers never coexist). -/
theorem reconnect_single_timer :
    ∀ evs : List WsEvent,
      (wsRun evs).2.pending.length ≤ 1 ∧
      (∀ p ∈ (wsRun evs).2.pending, p.2 = 1000) ∧
      (wsStep (wsRun evs) WsEvent.close).2.pending.length = 1 := by
  intro evs
  have hinv := wsRun_inv evs
  refine ⟨hinv.1, fun p hp => (hinv.2 p hp).1, ?_⟩
  obtain ⟨id, hpend, _⟩ := onClose_pending (wsRun evs).1 (wsRun evs).2 hinv
  show (onClose (wsRun evs).1 (wsRun evs).2).2.pending.length = 1
  rw [hpend]
  rfl

/-- Claim C8: a recorded chunk is dropped — by an ordinary early return,
never an exception — when the transport's buffered byte count exceeds the
16 MB ceiling or the socket is not open; zero-byte chunks are never sent;
otherwise the chunk is sent. -/
theorem capture_chunk_policy :
    ∀ size readyState bufferedAmount : Nat,
      (16000000 < bufferedAmount →
        onDataAvailable size readyState bufferedAmount = ChunkAction.dropped) ∧
      (readyState ≠ WebSocketOPEN →
        onDataAvailable size readyState bufferedAmount = ChunkAction.dropped) ∧
      (size = 0 →
        onDataAvailable size readyState bufferedAmount = ChunkAction.dropped) ∧
      (size ≠ 0 → readyState = WebSocketOPEN → bufferedAmount ≤ 16000000 →
        onDataAvailable size readyState bufferedAmount = ChunkAction.sent size) := by
  intro size readyState bufferedAmount
  refine ⟨?_, ?_, ?_, ?_⟩
  · intro hbuf
    unfold onDataAvailable
    by_cases hs : size = 0
    · rw [if_pos hs]
    · rw [if_neg hs]
      by_cases hr : readyState ≠ WebSocketOPEN
      · rw [if_pos hr]
      · rw [if_neg hr, if_pos hbuf]
  · intro hr
    unfold onDataAvailable
    by_cases hs : size = 0
    · rw [if_pos hs]
    · rw [if_neg hs, if_pos hr]
  · intro hs
    unfold onDataAvailable
    rw [if_pos hs]
  · intro hs hr hbuf
    unfold onDataAvailable
    rw [if_neg hs, if_neg (by simpa using hr), if_neg (by omega)]

/-- Witness for claim C8: with 17,000,000 buffered bytes a chunk is
dropped; with a small buffer on an open socket it is sent. -/
theorem capture_chunk_policy_witness :
    onDataAvailable 1024 WebSocketOPEN 17000000 = ChunkAction.dropped ∧
    onDataAvailable 1024 WebSocketOPEN 1000 = ChunkAction.sent 1024 :=
  ⟨(capture_chunk_policy 1024 WebSocketOPEN 17000000).1 (by norm_num),
   (capture_chunk_policy 1024 WebSocketOPEN 1000).2.2.2 (by norm_num) rfl (by norm_num)⟩

/-- Claim C9 (counterexample): when no chunk arrives within 10 s the
orchestrator does exit non-zero, but the claim's teardown half is false:
the rejection propagates to `main().catch`, which only logs and calls
`process.exit(1)`; control never reaches the `shutdown` routine that
closes the headless browser and kills the subprocesses. -/
theorem readiness_timeout_counterexample :
    (runOrchestrator ⟨true, true, false, 0⟩).exitCode ≠ 0 ∧
    ¬(runOrchestrator ⟨true, true, false, 0⟩).shutdownCalled = true := by
  decide

/-- Claim C9 (amended): if no media chunk is observed within 10 s of
launching the headless render surface, the orchestrator exits with code 1,
but its explicit shutdown routine is not invoked on this path — teardown
of the browser and encoder subprocesses is left to process-exit
cleanup. -/
theorem readiness_timeout_amended :
    ∀ sc : OrchScenario, sc.reachable = true → sc.selectorFound = true →
      sc.chunkWithin10s = false →
      runOrchestrator sc = ⟨1, false⟩ := by
  intro sc h1 h2 h3
  simp [runOrchestrator, h1, h2, h3]

/-- Witness for the amended claim C9. -/
theorem readiness_timeout_amended_witness :
    runOrchestrator ⟨true, true, false, 0⟩ = ⟨1, false⟩ :=
  readiness_timeout_amended ⟨true, true, false, 0⟩ rfl rfl rfl

end Quipslop
